import Mathlib

/-!
Shallow embedding of the CasADi sparsity-interface algebra layer
(`src/casadi/core/matrix/sparsity_interface.hpp`).

The algebra layer (the friend functions `horzcat`, `vertcat`, `horzsplit`,
`vertsplit`, `blkdiag`, `mul`, `transpose` of `SparsityInterface`) is embedded
from the source.  The raw primitives it delegates to (`zz_horzcat`,
`zz_vertcat`, `zz_horzsplit`, `zz_vertsplit`, `zz_blkdiag`, `zz_mtimes`,
`T()`, and the helper `range` from `std_vector_tools`) are not part of the
shown sources; they are modelled from the specification, as marked on each
definition.
-/

namespace Casadi

/-- Error taxonomy of the algebra layer: `InvalidArgument` for violated
preconditions on the layer's own parameters, `ShapeMismatch` for incompatible
operand dimensions. -/
inductive CasadiError where
  | invalidArgument : CasadiError
  | shapeMismatch : CasadiError
deriving DecidableEq

/-- A matrix-like value: a rectangular object with `nrow ≥ 0` rows,
`ncol ≥ 0` columns and, at each in-range position, either a structural zero
(`none`, absent from the sparsity pattern) or a stored entry (`some z`). -/
structure Mat where
  nrow : Nat
  ncol : Nat
  val : Nat → Nat → Option Int

/-- Observational equality of matrix-like values: same shape and, at every
in-range position, the same structural status and the same stored value. -/
def Mat.Eqv (a b : Mat) : Prop :=
  a.nrow = b.nrow ∧ a.ncol = b.ncol ∧
    ∀ i, i < a.nrow → ∀ j, j < a.ncol → a.val i j = b.val i j

instance (a b : Mat) : Decidable (a.Eqv b) :=
  inferInstanceAs (Decidable (a.nrow = b.nrow ∧ a.ncol = b.ncol ∧
    ∀ i, i < a.nrow → ∀ j, j < a.ncol → a.val i j = b.val i j))

/-- Modelled from the spec: the contiguous column range `[a, b)` of `v`,
used by the raw horizontal split primitive. -/
def Mat.colSlice (v : Mat) (a b : Int) : Mat :=
  { nrow := v.nrow, ncol := (b - a).toNat, val := fun i j => v.val i (a.toNat + j) }

/-- Modelled from the spec: the contiguous row range `[a, b)` of `v`,
used by the raw vertical split primitive. -/
def Mat.rowSlice (v : Mat) (a b : Int) : Mat :=
  { nrow := (b - a).toNat, ncol := v.ncol, val := fun i j => v.val (a.toNat + i) j }

/-- Modelled from the spec: the group boundaries derived from an offset
sequence `[o0, …, ok]`: `k` groups `[o_i, o_{i+1})`, where the last group
runs to the end of the dimension (`N`) if the caller's final boundary does
not already equal the dimension size. -/
def splitPairs (N : Int) : List Int → List (Int × Int)
  | a :: b :: rest =>
      (a, if rest = [] ∧ b ≠ N then N else b) :: splitPairs N (b :: rest)
  | _ => []

/-- Modelled from the spec: raw horizontal split primitive
(`MatType::zz_horzsplit`, not under the shown sources): one column slice
per group derived from the offset sequence. -/
def zz_horzsplit (v : Mat) (offset : List Int) : List Mat :=
  (splitPairs (v.ncol : Int) offset).map fun p => v.colSlice p.1 p.2

/-- Modelled from the spec: raw vertical split primitive
(`MatType::zz_vertsplit`, not under the shown sources). -/
def zz_vertsplit (v : Mat) (offset : List Int) : List Mat :=
  (splitPairs (v.nrow : Int) offset).map fun p => v.rowSlice p.1 p.2

/-- Total column count of a concatenation group. -/
def hcatCols : List Mat → Nat
  | [] => 0
  | m :: ms => m.ncol + hcatCols ms

/-- Entry lookup of a horizontal concatenation: column `j`'s data comes from
whichever input contains global column index `j`, in input order. -/
def hcatVal : List Mat → Nat → Nat → Option Int
  | [], _, _ => none
  | m :: ms, i, j => if j < m.ncol then m.val i j else hcatVal ms i (j - m.ncol)

/-- Modelled from the spec: raw horizontal concatenation primitive
(`MatType::zz_horzcat`, not under the shown sources): all elements must have
equal row count, else a `ShapeMismatch` condition; result has that row count
and the sum of the input column counts. -/
def zz_horzcat : List Mat → Except CasadiError Mat
  | [] => .ok { nrow := 0, ncol := 0, val := fun _ _ => none }
  | m :: ms =>
      if ms.all fun y => y.nrow = m.nrow then
        .ok { nrow := m.nrow, ncol := hcatCols (m :: ms), val := hcatVal (m :: ms) }
      else .error .shapeMismatch

/-- Total row count of a vertical concatenation group. -/
def vcatRows : List Mat → Nat
  | [] => 0
  | m :: ms => m.nrow + vcatRows ms

/-- Entry lookup of a vertical concatenation. -/
def vcatVal : List Mat → Nat → Nat → Option Int
  | [], _, _ => none
  | m :: ms, i, j => if i < m.nrow then m.val i j else vcatVal ms (i - m.nrow) j

/-- Modelled from the spec: raw vertical concatenation primitive
(`MatType::zz_vertcat`, not under the shown sources): all elements must have
equal column count, else a `ShapeMismatch` condition. -/
def zz_vertcat : List Mat → Except CasadiError Mat
  | [] => .ok { nrow := 0, ncol := 0, val := fun _ _ => none }
  | m :: ms =>
      if ms.all fun y => y.ncol = m.ncol then
        .ok { nrow := vcatRows (m :: ms), ncol := m.ncol, val := vcatVal (m :: ms) }
      else .error .shapeMismatch

/-- Total row count of a block-diagonal group. -/
def bdRows : List Mat → Nat
  | [] => 0
  | m :: ms => m.nrow + bdRows ms

/-- Total column count of a block-diagonal group. -/
def bdCols : List Mat → Nat
  | [] => 0
  | m :: ms => m.ncol + bdCols ms

/-- Entry lookup of a block-diagonal matrix: diagonal blocks reproduce each
input, every off-diagonal position is structurally zero. -/
def bdVal : List Mat → Nat → Nat → Option Int
  | [], _, _ => none
  | m :: ms, i, j =>
      if i < m.nrow then
        if j < m.ncol then m.val i j else none
      else
        if j < m.ncol then none else bdVal ms (i - m.nrow) (j - m.ncol)

/-- Modelled from the spec: raw block-diagonal primitive
(`MatType::zz_blkdiag`, not under the shown sources): no shape constraint
between inputs. -/
def zz_blkdiag (A : List Mat) : Mat :=
  { nrow := bdRows A, ncol := bdCols A, val := bdVal A }

/-- Numeric inner product of row `i` of `X` with column `j` of `Y`,
structural zeros contributing the value zero. -/
def dotVal (X Y : Mat) (i j : Nat) : Int :=
  ((List.range X.ncol).map fun k => (X.val i k).getD 0 * (Y.val k j).getD 0).sum

/-- Whether some inner index contributes structurally to position `(i, j)`
of the product `X·Y`: the structural-union product pattern. -/
def structOverlap (X Y : Mat) (i j : Nat) : Bool :=
  (List.range X.ncol).any fun k => (X.val i k).isSome && (Y.val k j).isSome

/-- Modelled from the spec: raw binary matrix product
(`MatType::zz_mtimes`, not under the shown sources): inner dimensions must
agree, else `ShapeMismatch`; result sparsity is the structural union implied
by the product. -/
def zz_mtimes (X Y : Mat) : Except CasadiError Mat :=
  if X.ncol = Y.nrow then
    .ok { nrow := X.nrow, ncol := Y.ncol,
          val := fun i j =>
            if structOverlap X Y i j then some (dotVal X Y i j) else none }
  else .error .shapeMismatch

/-- Modelled from the spec: raw masked-accumulate product
(`MatType::zz_mtimes(Y, Z)`, not under the shown sources): result has
exactly the sparsity pattern of `Z`, holding `Z`'s entry plus the
corresponding numeric entry of `X·Y`; entries of `X·Y` outside `Z`'s pattern
are structurally discarded. -/
def zz_mtimes3 (X Y Z : Mat) : Except CasadiError Mat :=
  if X.ncol = Y.nrow ∧ X.nrow = Z.nrow ∧ Y.ncol = Z.ncol then
    .ok { nrow := Z.nrow, ncol := Z.ncol,
          val := fun i j => (Z.val i j).map fun z => z + dotVal X Y i j }
  else .error .shapeMismatch

/-- Modelled from the spec: the member transpose `X.T()` (not under the
shown sources): rows and columns swapped, position `(i, j)` mapped
to `(j, i)`. -/
def Mat.T (X : Mat) : Mat :=
  { nrow := X.ncol, ncol := X.nrow, val := fun i j => X.val j i }

/-- Modelled from the spec: `range(start, stop, step)` from
`std_vector_tools` (not under the shown sources): the values
`start, start + step, start + 2·step, …` strictly below `stop`. -/
def rangeStep (start stop step : Int) : List Int :=
  if h : 0 < step ∧ start < stop then
    start :: rangeStep (start + step) stop step
  else []
termination_by (stop - start).toNat
decreasing_by omega

/-- Algebra layer, `sparsity_interface.hpp` line 50: `horzcat(v)` delegates
to the raw primitive. -/
def horzcat (v : List Mat) : Except CasadiError Mat :=
  zz_horzcat v

/-- Algebra layer, line 55: the two-matrix overload builds the two-element
vector `[x, y]` and delegates to the list form. -/
def horzcat2 (x y : Mat) : Except CasadiError Mat :=
  horzcat [x, y]

/-- Algebra layer, line 67: `vertcat(v)` delegates to the raw primitive. -/
def vertcat (v : List Mat) : Except CasadiError Mat :=
  zz_vertcat v

/-- Algebra layer, line 72: the two-matrix overload builds `[x, y]` and
delegates to the list form. -/
def vertcat2 (x y : Mat) : Except CasadiError Mat :=
  vertcat [x, y]

/-- Algebra layer, line 85: the explicit-offset horizontal split delegates
to the raw primitive. -/
def horzsplit (v : Mat) (offset : List Int) : List Mat :=
  zz_horzsplit v offset

/-- Algebra layer, line 95: the increment form asserts `incr ≥ 1`
(`casadi_assert`, an `InvalidArgument` condition), computes
`offset2 = range(0, size2, incr)` with `size2` appended, and delegates to
the explicit-offset form. -/
def horzsplitIncr (v : Mat) (incr : Int) : Except CasadiError (List Mat) :=
  if 1 ≤ incr then
    .ok (horzsplit v (rangeStep 0 (v.ncol : Int) incr ++ [(v.ncol : Int)]))
  else .error .invalidArgument

/-- Algebra layer, line 95: the C++ default argument `incr = 1`. -/
def horzsplit1 (v : Mat) : Except CasadiError (List Mat) :=
  horzsplitIncr v 1

/-- Algebra layer, line 109: the explicit-offset vertical split delegates
to the raw primitive. -/
def vertsplit (v : Mat) (offset : List Int) : List Mat :=
  zz_vertsplit v offset

/-- Algebra layer, line 119: the increment form asserts `incr ≥ 1`, computes
`offset1 = range(0, size1, incr)` with `size1` appended, and delegates to
the explicit-offset form. -/
def vertsplitIncr (v : Mat) (incr : Int) : Except CasadiError (List Mat) :=
  if 1 ≤ incr then
    .ok (vertsplit v (rangeStep 0 (v.nrow : Int) incr ++ [(v.nrow : Int)]))
  else .error .invalidArgument

/-- Algebra layer, line 119: the C++ default argument `incr = 1`. -/
def vertsplit1 (v : Mat) : Except CasadiError (List Mat) :=
  vertsplitIncr v 1

/-- Algebra layer, line 128: `blkdiag(A)` delegates to the raw primitive. -/
def blkdiag (A : List Mat) : Mat :=
  zz_blkdiag A

/-- Algebra layer, line 133: the two-matrix overload builds `[x, y]` and
delegates to the list form. -/
def blkdiag2 (x y : Mat) : Mat :=
  blkdiag [x, y]

/-- Algebra layer, line 141: the binary product delegates to the raw
primitive. -/
def mul (X Y : Mat) : Except CasadiError Mat :=
  zz_mtimes X Y

/-- Algebra layer, line 151: the masked-accumulate ternary product delegates
to the raw primitive. -/
def mul3 (X Y Z : Mat) : Except CasadiError Mat :=
  zz_mtimes3 X Y Z

/-- Algebra layer, lines 160-161: the loop
`for (i = 1; i < args.size(); ++i) ret = mul(ret, args[i])`. -/
def mulLoop (args : List Mat) (ret : Mat) (i : Nat) : Except CasadiError Mat :=
  if h : i < args.length then
    match mul ret (args.get ⟨i, h⟩) with
    | .ok r => mulLoop args r (i + 1)
    | .error e => .error e
  else .ok ret
termination_by args.length - i
decreasing_by omega

/-- Algebra layer, line 156: the n-ary product asserts a non-empty argument
list (`casadi_assert_message`, an `InvalidArgument` condition), then folds
`mul` from the left starting at `args[0]`. -/
def mulList (args : List Mat) : Except CasadiError Mat :=
  match args with
  | [] => .error .invalidArgument
  | a :: rest => mulLoop (a :: rest) a 1

/-- Algebra layer, line 166: `transpose(X)` delegates to `X.T()`. -/
def transpose (X : Mat) : Mat :=
  X.T

/-- Whether consecutive boundaries of an offset sequence are
non-decreasing. -/
def offsetsNondec : List Int → Bool
  | a :: b :: rest => (a ≤ b) && offsetsNondec (b :: rest)
  | _ => true

/-- A valid offset sequence partitioning `0..N`: starts at `0`, ends at `N`,
non-decreasing boundaries, and at least one group. -/
def ValidOffsets (N : Nat) (O : List Int) : Prop :=
  O.head? = some 0 ∧ O.getLast? = some (N : Int) ∧
    offsetsNondec O = true ∧ 2 ≤ O.length

instance (N : Nat) (O : List Int) : Decidable (ValidOffsets N O) :=
  inferInstanceAs (Decidable (O.head? = some 0 ∧ O.getLast? = some (N : Int) ∧
    offsetsNondec O = true ∧ 2 ≤ O.length))

/-- Mask of `A` to the sparsity pattern of `P` (the spec's
`setSparse`): entries of `A` outside `P`'s pattern are structurally
discarded. -/
def Mat.setSparse (A P : Mat) : Mat :=
  { nrow := A.nrow, ncol := A.ncol,
    val := fun i j => if (P.val i j).isSome then A.val i j else none }

/-- Elementwise sum of two matrix-like values of equal shape; the result's
pattern is the union of the operand patterns. -/
def Mat.add (A B : Mat) : Mat :=
  { nrow := A.nrow, ncol := A.ncol,
    val := fun i j =>
      match A.val i j, B.val i j with
      | some a, some b => some (a + b)
      | some a, none => some a
      | none, some b => some b
      | none, none => none }

/-- A concrete 2-by-3 matrix with one structural zero, used as a test
operand. -/
def matA : Mat :=
  { nrow := 2, ncol := 3,
    val := fun i j => if i = 0 ∧ j = 1 then none else some (Int.ofNat (i * 3 + j) + 1) }

/-- A concrete dense 2-by-2 matrix, used as a test operand. -/
def matX : Mat :=
  { nrow := 2, ncol := 2, val := fun i j => some (Int.ofNat (2 * i + j) + 1) }

/-- A second concrete dense 2-by-2 matrix, used as a test operand. -/
def matY : Mat :=
  { nrow := 2, ncol := 2, val := fun i j => some (Int.ofNat (2 * i + j) + 5) }

/-- A concrete 2-by-2 matrix whose sparsity pattern holds only position
`(0, 0)`, used as a masked-accumulate target. -/
def matZ : Mat :=
  { nrow := 2, ncol := 2, val := fun i j => if i = 0 ∧ j = 0 then some 10 else none }

/-- A concrete dense 3-by-3 matrix, used as a test operand. -/
def matB3 : Mat :=
  { nrow := 3, ncol := 3, val := fun _ _ => some 1 }

/-- A concrete dense 2-by-2 matrix, used as a test operand. -/
def matC2 : Mat :=
  { nrow := 2, ncol := 2, val := fun _ _ => some 2 }

/-- Closed form of `rangeStep` with unit step, stated through the remaining
distance `n = (b - a).toNat`. -/
theorem rangeStep_one :
    ∀ (n : Nat) (a b : Int), (b - a).toNat = n →
      rangeStep a b 1 = (List.range n).map fun k : Nat => a + (k : Int) := by
  intro n
  induction n with
  | zero =>
      intro a b h
      rw [rangeStep, dif_neg]
      · rfl
      · omega
  | succ n ih =>
      intro a b h
      rw [rangeStep, dif_pos ⟨by omega, by omega⟩]
      rw [ih (a + 1) b (by omega), List.range_succ_eq_map]
      simp only [List.map_cons, Nat.cast_zero, add_zero, List.map_map]
      refine congrArg (List.cons a) ?_
      apply List.map_congr_left
      intro k _
      simp only [Function.comp_apply]
      push_cast
      ring

/-- Number of groups derived from an offset sequence: one fewer than the
number of boundaries. -/
theorem splitPairs_length (N : Int) :
    ∀ O : List Int, (splitPairs N O).length = O.length - 1 := by
  intro O
  induction O with
  | nil => rfl
  | cons a tl ih =>
      cases tl with
      | nil => rfl
      | cons b rest =>
          have := ih
          simp only [splitPairs, List.length_cons] at this ⊢
          omega

/-- C4: for any matrix and any increment `incr ≥ 1`, the increment form of
`horzsplit` equals the explicit-offset form at
`range(0, cols, incr) ++ [cols]`, and symmetrically for `vertsplit` with
rows. -/
theorem split_incr_offsets (v : Mat) (incr : Int) (h : 1 ≤ incr) :
    horzsplitIncr v incr =
      .ok (horzsplit v (rangeStep 0 (v.ncol : Int) incr ++ [(v.ncol : Int)])) ∧
    vertsplitIncr v incr =
      .ok (vertsplit v (rangeStep 0 (v.nrow : Int) incr ++ [(v.nrow : Int)])) := by
  constructor <;> simp [horzsplitIncr, vertsplitIncr, h]

/-- Witness for C4 at the concrete matrix `matA` and increment `2`. -/
theorem split_incr_offsets_witness :
    horzsplitIncr matA 2 =
      .ok (horzsplit matA (rangeStep 0 (matA.ncol : Int) 2 ++ [(matA.ncol : Int)])) ∧
    vertsplitIncr matA 2 =
      .ok (vertsplit matA (rangeStep 0 (matA.nrow : Int) 2 ++ [(matA.nrow : Int)])) :=
  split_incr_offsets matA 2 (by decide)

/-- C5: for any matrix and any increment `incr < 1`, the increment forms of
`horzsplit` and `vertsplit` both fail with `InvalidArgument` and produce no
partial result. -/
theorem split_incr_invalid (v : Mat) (incr : Int) (h : incr < 1) :
    horzsplitIncr v incr = .error .invalidArgument ∧
    vertsplitIncr v incr = .error .invalidArgument := by
  have h1 : ¬ (1 ≤ incr) := by omega
  exact ⟨by simp [horzsplitIncr, h1], by simp [vertsplitIncr, h1]⟩

/-- Witness for C5 at the concrete matrix `matA` and increment `0`. -/
theorem split_incr_invalid_witness :
    horzsplitIncr matA 0 = .error .invalidArgument ∧
    vertsplitIncr matA 0 = .error .invalidArgument :=
  split_incr_invalid matA 0 (by decide)

/-- C6: the n-ary product applied to the empty list fails with
`InvalidArgument`; the check is on the argument list alone, before any raw
product primitive is invoked. -/
theorem mul_empty_invalid :
    mulList [] = .error CasadiError.invalidArgument := rfl

/-- C7: each two-argument overload equals the list form applied to the
two-element sequence `[x, y]`. -/
theorem binary_overloads_delegate (x y : Mat) :
    horzcat2 x y = horzcat [x, y] ∧
    vertcat2 x y = vertcat [x, y] ∧
    blkdiag2 x y = blkdiag [x, y] :=
  ⟨rfl, rfl, rfl⟩

/-- C8: `transpose` swaps rows and columns, maps position `(i, j)` to
`(j, i)`, and is an involution on every matrix-like value. -/
theorem transpose_involution (X : Mat) :
    (transpose X).nrow = X.ncol ∧ (transpose X).ncol = X.nrow ∧
    (∀ i j, (transpose X).val i j = X.val j i) ∧
    transpose (transpose X) = X :=
  ⟨rfl, rfl, fun _ _ => rfl, rfl⟩

/-- C10: the single-argument splits use the default increment `1`, which is
the explicit offset sequence `[0, 1, …, size]`, an all-singleton partition
with one group per column (respectively per row). -/
theorem split_default_incr (v : Mat) :
    horzsplit1 v = horzsplitIncr v 1 ∧
    horzsplitIncr v 1 =
      .ok (horzsplit v ((List.range v.ncol).map (fun k : Nat => (k : Int)) ++ [(v.ncol : Int)])) ∧
    (horzsplit v ((List.range v.ncol).map (fun k : Nat => (k : Int)) ++ [(v.ncol : Int)])).length
      = v.ncol ∧
    vertsplit1 v = vertsplitIncr v 1 ∧
    vertsplitIncr v 1 =
      .ok (vertsplit v ((List.range v.nrow).map (fun k : Nat => (k : Int)) ++ [(v.nrow : Int)])) ∧
    (vertsplit v ((List.range v.nrow).map (fun k : Nat => (k : Int)) ++ [(v.nrow : Int)])).length
      = v.nrow := by
  have hr : ∀ n : Nat, rangeStep 0 (n : Int) 1 = (List.range n).map fun k : Nat => (k : Int) := by
    intro n
    rw [rangeStep_one n 0 (n : Int) (by omega)]
    simp
  refine ⟨rfl, ?_, ?_, rfl, ?_, ?_⟩
  · simp [horzsplitIncr, hr]
  · simp only [horzsplit, zz_horzsplit, List.length_map, splitPairs_length,
      List.length_append, List.length_range, List.length_cons, List.length_nil]
    omega
  · simp [vertsplitIncr, hr]
  · simp only [vertsplit, zz_vertsplit, List.length_map, splitPairs_length,
      List.length_append, List.length_range, List.length_cons, List.length_nil]
    omega

/-- Reduction of the monadic bind of `Except` at a success value. -/
theorem exceptSeqBind_ok {α β ε : Type} (a : α) (f : α → Except ε β) :
    (Except.ok a >>= f) = f a := rfl

/-- Reduction of the monadic bind of `Except` at an error value. -/
theorem exceptSeqBind_error {α β ε : Type} (e : ε) (f : α → Except ε β) :
    ((Except.error e : Except ε α) >>= f) = Except.error e := rfl

/-- Reduction of `Except.bind` at a success value. -/
theorem exceptBind_ok {α β ε : Type} (a : α) (f : α → Except ε β) :
    Except.bind (Except.ok a) f = f a := rfl

/-- Reduction of `Except.bind` at an error value. -/
theorem exceptBind_error {α β ε : Type} (e : ε) (f : α → Except ε β) :
    Except.bind (Except.error e : Except ε α) f = Except.error e := rfl

/-- The indexed product loop starting at position `pre.length` of
`pre ++ rest` is the monadic left fold of `mul` over `rest`. -/
theorem mulLoop_eq_foldlM :
    ∀ (rest pre : List Mat) (ret : Mat),
      mulLoop (pre ++ rest) ret pre.length = List.foldlM mul ret rest := by
  intro rest
  induction rest with
  | nil =>
      intro pre ret
      rw [mulLoop, dif_neg (by simp)]
      rfl
  | cons r rs ih =>
      intro pre ret
      have hlt : pre.length < (pre ++ r :: rs).length := by simp
      rw [mulLoop, dif_pos hlt]
      have hget : (pre ++ r :: rs).get ⟨pre.length, hlt⟩ = r := by
        rw [List.get_eq_getElem, List.getElem_append_right (le_refl pre.length)]
        simp
      rw [hget]
      have htail : mulLoop (pre ++ r :: rs) = mulLoop ((pre ++ [r]) ++ rs) := by
        rw [List.append_assoc]
        rfl
      have hlen : pre.length + 1 = (pre ++ [r]).length := by simp
      rw [htail, hlen]
      cases hmr : mul ret r with
      | ok r2 =>
          show mulLoop ((pre ++ [r]) ++ rs) r2 ((pre ++ [r]).length)
            = List.foldlM mul ret (r :: rs)
          rw [ih (pre ++ [r]) r2]
          simp only [List.foldlM_cons, hmr, exceptSeqBind_ok]
      | error e =>
          show Except.error e = List.foldlM mul ret (r :: rs)
          simp only [List.foldlM_cons, hmr, exceptSeqBind_error]

/-- C3: the n-ary product is a strict left-to-right fold: `mul([A]) = A`,
`mul(list)` folds `mul` from the left over the tail starting at the head,
and `mul([A, B, C])` is `mul(mul(A, B), C)` (with error propagation). -/
theorem mul_nary_fold :
    (∀ A : Mat, mulList [A] = .ok A) ∧
    (∀ (x : Mat) (xs : List Mat), mulList (x :: xs) = List.foldlM mul x xs) ∧
    (∀ A B C : Mat, mulList [A, B, C] = (mul A B).bind fun AB => mul AB C) := by
  have hfold : ∀ (x : Mat) (xs : List Mat), mulList (x :: xs) = List.foldlM mul x xs := by
    intro x xs
    have := mulLoop_eq_foldlM xs [x] x
    simpa [mulList] using this
  refine ⟨?_, hfold, ?_⟩
  · intro A
    rw [hfold A []]
    rfl
  · intro A B C
    rw [hfold A [B, C]]
    cases h1 : mul A B with
    | ok AB =>
        simp only [List.foldlM_cons, h1, exceptSeqBind_ok, exceptBind_ok,
          List.foldlM_nil]
        cases h2 : mul AB C with
        | ok R =>
            simp only [h2, exceptSeqBind_ok]
            rfl
        | error e => simp only [h2, exceptSeqBind_error]
    | error e =>
        simp only [List.foldlM_cons, h1, exceptSeqBind_error, exceptBind_error]

/-- With no structural overlap at `(i, j)`, the numeric product entry is
zero. -/
theorem dotVal_eq_zero (X Y : Mat) (i j : Nat)
    (h : structOverlap X Y i j = false) : dotVal X Y i j = 0 := by
  unfold dotVal
  apply List.sum_eq_zero
  intro t ht
  rw [List.mem_map] at ht
  obtain ⟨k, hk, rfl⟩ := ht
  unfold structOverlap at h
  rw [List.any_eq_false] at h
  have hko := h k hk
  cases hX : X.val i k with
  | none => simp
  | some u =>
      cases hY : Y.val k j with
      | none => simp
      | some w =>
          exfalso
          exact hko (by simp [hX, hY])

/-- C2: when the inner dimensions agree and the product shape equals `Z`'s
shape, the ternary product succeeds, has exactly `Z`'s sparsity pattern,
holds `Z`'s entry plus the corresponding numeric entry of `X·Y` at each
pattern position, and observationally equals `Z + mask(X·Y, sparsity(Z))`. -/
theorem mul_masked_accumulate (X Y Z : Mat)
    (h1 : X.ncol = Y.nrow) (h2 : X.nrow = Z.nrow) (h3 : Y.ncol = Z.ncol) :
    ∃ P R, mul X Y = .ok P ∧ mul3 X Y Z = .ok R ∧
      R.nrow = Z.nrow ∧ R.ncol = Z.ncol ∧
      (∀ i j, (R.val i j).isSome ↔ (Z.val i j).isSome) ∧
      (∀ i j z, Z.val i j = some z → R.val i j = some (z + dotVal X Y i j)) ∧
      R.Eqv (Z.add (P.setSparse Z)) := by
  have hP : mul X Y = .ok
      { nrow := X.nrow, ncol := Y.ncol,
        val := fun i j =>
          if structOverlap X Y i j then some (dotVal X Y i j) else none } := by
    simp [mul, zz_mtimes, h1]
  have hR : mul3 X Y Z = .ok
      { nrow := Z.nrow, ncol := Z.ncol,
        val := fun i j => (Z.val i j).map fun z => z + dotVal X Y i j } := by
    simp [mul3, zz_mtimes3, h1, h2, h3]
  refine ⟨_, _, hP, hR, rfl, rfl, ?_, ?_, ?_⟩
  · intro i j
    simp
  · intro i j z hz
    simp [hz]
  · refine ⟨h2.symm ▸ rfl, ?_, ?_⟩
    · exact h3 ▸ rfl
    · intro i _ j _
      show ((Z.val i j).map fun z => z + dotVal X Y i j) = _
      unfold Mat.add Mat.setSparse
      cases hz : Z.val i j with
      | none => simp [hz]
      | some z =>
          cases hov : structOverlap X Y i j with
          | true => simp [hz, hov]
          | false => simp [hz, hov, dotVal_eq_zero X Y i j hov]

/-- Witness for C2 at concrete dense factors and a target whose pattern
holds only position `(0, 0)`. -/
theorem mul_masked_accumulate_witness :
    ∃ P R, mul matX matY = .ok P ∧ mul3 matX matY matZ = .ok R ∧
      R.nrow = matZ.nrow ∧ R.ncol = matZ.ncol ∧
      (∀ i j, (R.val i j).isSome ↔ (matZ.val i j).isSome) ∧
      (∀ i j z, matZ.val i j = some z → R.val i j = some (z + dotVal matX matY i j)) ∧
      R.Eqv (matZ.add (P.setSparse matZ)) :=
  mul_masked_accumulate matX matY matZ rfl rfl rfl

/-- C9: a concatenation group containing two elements of unequal row count
makes `horzcat` fail with `ShapeMismatch` and produce no result, and
symmetrically `vertcat` fails on unequal column counts. -/
theorem cat_shape_mismatch (v w : List Mat) (a b c d : Mat)
    (hav : a ∈ v) (hbv : b ∈ v) (hab : a.nrow ≠ b.nrow)
    (hcw : c ∈ w) (hdw : d ∈ w) (hcd : c.ncol ≠ d.ncol) :
    horzcat v = .error .shapeMismatch ∧ vertcat w = .error .shapeMismatch := by
  constructor
  · cases v with
    | nil => exact absurd hav (by simp)
    | cons m ms =>
        have hall : ¬ (ms.all fun y => y.nrow = m.nrow) = true := by
          intro hal
          simp only [List.all_eq_true, decide_eq_true_eq] at hal
          have hmem : ∀ y ∈ m :: ms, y.nrow = m.nrow := by
            intro y hy
            rcases List.mem_cons.mp hy with h | h
            · rw [h]
            · exact hal y h
          exact hab ((hmem a hav).trans (hmem b hbv).symm)
        simp only [horzcat, zz_horzcat, if_neg hall]
  · cases w with
    | nil => exact absurd hcw (by simp)
    | cons m ms =>
        have hall : ¬ (ms.all fun y => y.ncol = m.ncol) = true := by
          intro hal
          simp only [List.all_eq_true, decide_eq_true_eq] at hal
          have hmem : ∀ y ∈ m :: ms, y.ncol = m.ncol := by
            intro y hy
            rcases List.mem_cons.mp hy with h | h
            · rw [h]
            · exact hal y h
          exact hcd ((hmem c hcw).trans (hmem d hdw).symm)
        simp only [vertcat, zz_vertcat, if_neg hall]

/-- Witness for C9: `horzcat` of a 2-by-3 and a 3-by-3 matrix and `vertcat`
of a 2-by-3 and a 2-by-2 matrix both fail with `ShapeMismatch`. -/
theorem cat_shape_mismatch_witness :
    horzcat [matA, matB3] = .error .shapeMismatch ∧
    vertcat [matA, matC2] = .error .shapeMismatch :=
  cat_shape_mismatch [matA, matB3] [matA, matC2] matA matB3 matA matC2
    (List.mem_cons_self matA [matB3])
    (List.mem_cons_of_mem matA (List.mem_cons_self matB3 []))
    (by decide)
    (List.mem_cons_self matA [matC2])
    (List.mem_cons_of_mem matA (List.mem_cons_self matC2 []))
    (by decide)

/-- Splitting of the non-decreasing test at a cons-cons list. -/
theorem offsetsNondec_cons {a b : Int} {rest : List Int} :
    offsetsNondec (a :: b :: rest) = true ↔
      a ≤ b ∧ offsetsNondec (b :: rest) = true := by
  simp [offsetsNondec]

/-- Every element of a non-decreasing chain is bounded by its last
element. -/
theorem chain_le_getLast :
    ∀ (L : List Int) (z : Int), offsetsNondec L = true →
      L.getLast? = some z → ∀ y ∈ L, y ≤ z := by
  intro L
  induction L with
  | nil =>
      intro z _ hlast y hy
      exact absurd hy (by simp)
  | cons a tl ih =>
      intro z hch hlast y hy
      cases tl with
      | nil =>
          simp only [List.getLast?_singleton, Option.some.injEq] at hlast
          rcases List.mem_singleton.mp hy with rfl
          omega
      | cons b rest =>
          rw [List.getLast?_cons_cons] at hlast
          have hab : a ≤ b := (offsetsNondec_cons.mp hch).1
          have hch2 := (offsetsNondec_cons.mp hch).2
          rcases List.mem_cons.mp hy with rfl | hy2
          · exact le_trans hab (ih z hch2 hlast b (List.mem_cons_self b rest))
          · exact ih z hch2 hlast y hy2

/-- Splitting `x` at boundaries `a :: tl` running from `a` up to `x.ncol`
yields pieces whose column counts telescope to `x.ncol - a`, whose row
counts all equal `x.nrow`, and whose concatenated entry lookup recovers
`x`'s entries shifted by `a`. -/
theorem hsplit_spec (x : Mat) :
    ∀ (tl : List Int) (a : Int),
      offsetsNondec (a :: tl) = true →
      (a :: tl).getLast? = some (x.ncol : Int) →
      0 ≤ a →
      hcatCols (zz_horzsplit x (a :: tl)) = ((x.ncol : Int) - a).toNat ∧
      (∀ y ∈ zz_horzsplit x (a :: tl), y.nrow = x.nrow) ∧
      ∀ i j, j < ((x.ncol : Int) - a).toNat →
        hcatVal (zz_horzsplit x (a :: tl)) i j = x.val i (a.toNat + j) := by
  intro tl
  induction tl with
  | nil =>
      intro a _ hlast _
      simp only [List.getLast?_singleton, Option.some.injEq] at hlast
      subst hlast
      refine ⟨by simp [zz_horzsplit, splitPairs, hcatCols], ?_, ?_⟩
      · intro y hy
        exact absurd hy (by simp [zz_horzsplit, splitPairs])
      · intro i j hj
        omega
  | cons b rest ih =>
      intro a hch hlast ha
      have hab : a ≤ b := (offsetsNondec_cons.mp hch).1
      have hch2 := (offsetsNondec_cons.mp hch).2
      rw [List.getLast?_cons_cons] at hlast
      have hb0 : (0 : Int) ≤ b := le_trans ha hab
      have hbN : b ≤ (x.ncol : Int) :=
        chain_le_getLast _ _ hch2 hlast b (List.mem_cons_self b rest)
      obtain ⟨ihc, ihn, ihv⟩ := ih b hch2 hlast hb0
      have hpair : splitPairs (x.ncol : Int) (a :: b :: rest)
          = (a, b) :: splitPairs (x.ncol : Int) (b :: rest) := by
        cases rest with
        | nil =>
            simp only [List.getLast?_singleton, Option.some.injEq] at hlast
            simp [splitPairs, hlast]
        | cons c cs => simp [splitPairs]
      have hsplit : zz_horzsplit x (a :: b :: rest)
          = x.colSlice a b :: zz_horzsplit x (b :: rest) := by
        unfold zz_horzsplit
        rw [hpair]
        rfl
      refine ⟨?_, ?_, ?_⟩
      · rw [hsplit]
        show (x.colSlice a b).ncol + hcatCols (zz_horzsplit x (b :: rest)) = _
        rw [ihc]
        show (b - a).toNat + ((x.ncol : Int) - b).toNat = ((x.ncol : Int) - a).toNat
        omega
      · intro y hy
        rw [hsplit] at hy
        rcases List.mem_cons.mp hy with rfl | hy2
        · rfl
        · exact ihn y hy2
      · intro i j hj
        rw [hsplit]
        show (if j < (x.colSlice a b).ncol then (x.colSlice a b).val i j
          else hcatVal (zz_horzsplit x (b :: rest)) i (j - (x.colSlice a b).ncol))
          = x.val i (a.toNat + j)
        by_cases hcase : j < (b - a).toNat
        · rw [if_pos (show j < (x.colSlice a b).ncol from hcase)]
          rfl
        · rw [if_neg (show ¬ j < (x.colSlice a b).ncol from hcase)]
          show hcatVal (zz_horzsplit x (b :: rest)) i (j - (b - a).toNat) = _
          rw [ihv i (j - (b - a).toNat) (by omega)]
          congr 1
          omega

/-- Row analogue of `hsplit_spec`. -/
theorem vsplit_spec (x : Mat) :
    ∀ (tl : List Int) (a : Int),
      offsetsNondec (a :: tl) = true →
      (a :: tl).getLast? = some (x.nrow : Int) →
      0 ≤ a →
      vcatRows (zz_vertsplit x (a :: tl)) = ((x.nrow : Int) - a).toNat ∧
      (∀ y ∈ zz_vertsplit x (a :: tl), y.ncol = x.ncol) ∧
      ∀ i j, i < ((x.nrow : Int) - a).toNat →
        vcatVal (zz_vertsplit x (a :: tl)) i j = x.val (a.toNat + i) j := by
  intro tl
  induction tl with
  | nil =>
      intro a _ hlast _
      simp only [List.getLast?_singleton, Option.some.injEq] at hlast
      subst hlast
      refine ⟨by simp [zz_vertsplit, splitPairs, vcatRows], ?_, ?_⟩
      · intro y hy
        exact absurd hy (by simp [zz_vertsplit, splitPairs])
      · intro i j hi
        omega
  | cons b rest ih =>
      intro a hch hlast ha
      have hab : a ≤ b := (offsetsNondec_cons.mp hch).1
      have hch2 := (offsetsNondec_cons.mp hch).2
      rw [List.getLast?_cons_cons] at hlast
      have hb0 : (0 : Int) ≤ b := le_trans ha hab
      have hbN : b ≤ (x.nrow : Int) :=
        chain_le_getLast _ _ hch2 hlast b (List.mem_cons_self b rest)
      obtain ⟨ihc, ihn, ihv⟩ := ih b hch2 hlast hb0
      have hpair : splitPairs (x.nrow : Int) (a :: b :: rest)
          = (a, b) :: splitPairs (x.nrow : Int) (b :: rest) := by
        cases rest with
        | nil =>
            simp only [List.getLast?_singleton, Option.some.injEq] at hlast
            simp [splitPairs, hlast]
        | cons c cs => simp [splitPairs]
      have hsplit : zz_vertsplit x (a :: b :: rest)
          = x.rowSlice a b :: zz_vertsplit x (b :: rest) := by
        unfold zz_vertsplit
        rw [hpair]
        rfl
      refine ⟨?_, ?_, ?_⟩
      · rw [hsplit]
        show (x.rowSlice a b).nrow + vcatRows (zz_vertsplit x (b :: rest)) = _
        rw [ihc]
        show (b - a).toNat + ((x.nrow : Int) - b).toNat = ((x.nrow : Int) - a).toNat
        omega
      · intro y hy
        rw [hsplit] at hy
        rcases List.mem_cons.mp hy with rfl | hy2
        · rfl
        · exact ihn y hy2
      · intro i j hi
        rw [hsplit]
        show (if i < (x.rowSlice a b).nrow then (x.rowSlice a b).val i j
          else vcatVal (zz_vertsplit x (b :: rest)) (i - (x.rowSlice a b).nrow) j)
          = x.val (a.toNat + i) j
        by_cases hcase : i < (b - a).toNat
        · rw [if_pos (show i < (x.rowSlice a b).nrow from hcase)]
          rfl
        · rw [if_neg (show ¬ i < (x.rowSlice a b).nrow from hcase)]
          show vcatVal (zz_vertsplit x (b :: rest)) (i - (b - a).toNat) j = _
          rw [ihv (i - (b - a).toNat) j (by omega)]
          congr 1
          omega

/-- Horizontal round trip: concatenating the pieces of a valid-offset
horizontal split recovers the original matrix observationally. -/
theorem horz_round_trip (x : Mat) (O : List Int) (hO : ValidOffsets x.ncol O) :
    ∃ y, horzcat (horzsplit x O) = .ok y ∧ y.Eqv x := by
  obtain ⟨h0, hlast, hch, hlen⟩ := hO
  cases O with
  | nil => exact absurd h0 (by simp)
  | cons o tl =>
      simp only [List.head?_cons, Option.some.injEq] at h0
      subst h0
      cases tl with
      | nil => exact absurd hlen (by simp)
      | cons b rest =>
          obtain ⟨hc, hn, hv⟩ := hsplit_spec x (b :: rest) 0 hch hlast (le_refl 0)
          cases hpieces : zz_horzsplit x (0 :: b :: rest) with
          | nil => exact absurd hpieces (by simp [zz_horzsplit, splitPairs])
          | cons m ms =>
              rw [hpieces] at hc hn hv
              have hrows : ∀ y ∈ m :: ms, y.nrow = x.nrow := hn
              have hall : (ms.all fun y => y.nrow = m.nrow) = true := by
                simp only [List.all_eq_true, decide_eq_true_eq]
                intro y hy
                rw [hrows y (List.mem_cons_of_mem m hy),
                  hrows m (List.mem_cons_self m ms)]
              refine ⟨Mat.mk m.nrow (hcatCols (m :: ms)) (hcatVal (m :: ms)),
                ?_, ?_, ?_, ?_⟩
              · rw [show horzsplit x (0 :: b :: rest) = m :: ms from hpieces]
                show zz_horzcat (m :: ms) = _
                simp only [zz_horzcat]
                rw [if_pos hall]
              · exact hrows m (List.mem_cons_self m ms)
              · show hcatCols (m :: ms) = x.ncol
                omega
              · intro i hi j hj
                show hcatVal (m :: ms) i j = x.val i j
                have hjc : j < hcatCols (m :: ms) := hj
                have hj2 : j < ((x.ncol : Int) - 0).toNat := by omega
                rw [hv i j hj2]
                congr 1
                omega

/-- Vertical round trip: concatenating the pieces of a valid-offset
vertical split recovers the original matrix observationally. -/
theorem vert_round_trip (x : Mat) (P : List Int) (hP : ValidOffsets x.nrow P) :
    ∃ z, vertcat (vertsplit x P) = .ok z ∧ z.Eqv x := by
  obtain ⟨h0, hlast, hch, hlen⟩ := hP
  cases P with
  | nil => exact absurd h0 (by simp)
  | cons o tl =>
      simp only [List.head?_cons, Option.some.injEq] at h0
      subst h0
      cases tl with
      | nil => exact absurd hlen (by simp)
      | cons b rest =>
          obtain ⟨hc, hn, hv⟩ := vsplit_spec x (b :: rest) 0 hch hlast (le_refl 0)
          cases hpieces : zz_vertsplit x (0 :: b :: rest) with
          | nil => exact absurd hpieces (by simp [zz_vertsplit, splitPairs])
          | cons m ms =>
              rw [hpieces] at hc hn hv
              have hcols : ∀ y ∈ m :: ms, y.ncol = x.ncol := hn
              have hall : (ms.all fun y => y.ncol = m.ncol) = true := by
                simp only [List.all_eq_true, decide_eq_true_eq]
                intro y hy
                rw [hcols y (List.mem_cons_of_mem m hy),
                  hcols m (List.mem_cons_self m ms)]
              refine ⟨Mat.mk (vcatRows (m :: ms)) m.ncol (vcatVal (m :: ms)),
                ?_, ?_, ?_, ?_⟩
              · rw [show vertsplit x (0 :: b :: rest) = m :: ms from hpieces]
                show zz_vertcat (m :: ms) = _
                simp only [zz_vertcat]
                rw [if_pos hall]
              · show vcatRows (m :: ms) = x.nrow
                omega
              · exact hcols m (List.mem_cons_self m ms)
              · intro i hi j hj
                show vcatVal (m :: ms) i j = x.val i j
                have hic : i < vcatRows (m :: ms) := hi
                have hi2 : i < ((x.nrow : Int) - 0).toNat := by omega
                rw [hv i j hi2]
                congr 1
                omega

/-- C1: for every matrix-like value `x`, every valid offset sequence `O`
partitioning `x`'s columns and every valid offset sequence `P` partitioning
`x`'s rows, `horzcat(horzsplit(x, O))` and `vertcat(vertsplit(x, P))` both
succeed and recover `x` exactly: same shape, same sparsity pattern, same
element values. -/
theorem round_trip_split_cat (x : Mat) (O P : List Int)
    (hO : ValidOffsets x.ncol O) (hP : ValidOffsets x.nrow P) :
    (∃ y, horzcat (horzsplit x O) = .ok y ∧ y.Eqv x) ∧
    (∃ z, vertcat (vertsplit x P) = .ok z ∧ z.Eqv x) :=
  ⟨horz_round_trip x O hO, vert_round_trip x P hP⟩

/-- Witness for C1 at the concrete matrix `matA`, the column partition
`[0, 2, 3]` and the all-singleton row partition `[0, 1, 2]`. -/
theorem round_trip_split_cat_witness :
    (∃ y, horzcat (horzsplit matA [0, 2, 3]) = .ok y ∧ y.Eqv matA) ∧
    (∃ z, vertcat (vertsplit matA [0, 1, 2]) = .ok z ∧ z.Eqv matA) :=
  round_trip_split_cat matA [0, 2, 3] [0, 1, 2] (by decide) (by decide)

end Casadi
